import Mathlib

/-!
Verification of the DocSanitizer core pipeline and PDF converter.

Text is modelled as `List Char`.  The sanitization core (pattern library,
detectors, span resolver, canonicalizer, mapping, encoder, decoder,
mapping loader) is not present in the repository snapshot (only its
callers are), so those definitions are modelled from the specification;
each such definition carries a doc comment saying so.  The PDF converter
(`converter.py`) is present and is embedded directly from the source,
with the Python runtime environment (filesystem, optional imports,
external libraries) abstracted as explicit parameters.
-/

namespace DocSanitizer

/-- Entity categories.  Modelled from the spec: the `category` enum of a
Match (PERSON, LOCATION, EMAIL, PHONE, IBAN, NATIONAL_ID, DATE, OTHER). -/
inductive Category where
  | PERSON
  | LOCATION
  | EMAIL
  | PHONE
  | IBAN
  | NATIONAL_ID
  | DATE
  | OTHER
deriving DecidableEq, Repr

/-- Detector sources.  Modelled from the spec: which detector produced a
Match (`patterns` runs the Pattern Library, `statistical` the external
NER collaborator). -/
inductive MSource where
  | patterns
  | statistical
deriving DecidableEq, Repr

/-- Printable name of a category, used to build placeholder keys. -/
def catName : Category → List Char
  | .PERSON => "PERSON".toList
  | .LOCATION => "LOCATION".toList
  | .EMAIL => "EMAIL".toList
  | .PHONE => "PHONE".toList
  | .IBAN => "IBAN".toList
  | .NATIONAL_ID => "NATIONAL_ID".toList
  | .DATE => "DATE".toList
  | .OTHER => "OTHER".toList

/-- Modelled from the spec: a candidate sensitive span produced by a
detector, with character offsets into the source text.  The spec's float
confidence in [0,1] is represented scaled by 100 as a natural number
(pattern matches have fixed confidence 1.0, i.e. 100). -/
structure Match where
  start : Nat
  stop : Nat
  text : List Char
  category : Category
  source : MSource
  conf : Nat
deriving DecidableEq, Repr

/-- Supported language codes (spec: nl, en, de, fr, it, es; anything else
falls back to a language-neutral subset). -/
inductive Lang where
  | nl
  | en
  | de
  | fr
  | it
  | es
  | other
deriving DecidableEq, Repr

/-! ## Tokenizer

The pattern library is modelled as a scanner over the text: maximal runs
of a character class are candidate tokens, each validated by a
shape/checksum test. -/

/-- Accumulating scanner: collects maximal runs of characters satisfying
`p`, together with the start offset of each run.  `i` is the offset of
the head of the remaining input, `acc` the current run, reversed. -/
def tokAux (p : Char → Bool) : List Char → Nat → List Char → List (Nat × List Char)
  | [], i, acc => if acc.isEmpty then [] else [(i - acc.length, acc.reverse)]
  | c :: cs, i, acc =>
    if p c then
      tokAux p cs (i + 1) (c :: acc)
    else if acc.isEmpty then
      tokAux p cs (i + 1) []
    else
      (i - acc.length, acc.reverse) :: tokAux p cs (i + 1) []

/-- Maximal runs of characters satisfying `p`, with start offsets. -/
def tokenize (p : Char → Bool) (text : List Char) : List (Nat × List Char) :=
  tokAux p text 0 []

/-! ## Pattern library (modelled from the spec)

Per-language rules for emails, IBANs and national-ID numbers.  IBAN and
national-ID matchers apply a checksum validation step and reject
checksum-invalid candidates.  The spec's remaining categories (phone,
date) follow the same tokenize-and-validate shape and are not needed by
any claim, so the model covers EMAIL and IBAN for every language and the
Dutch BSN national ID for `nl`. -/

/-- Characters that may appear in an email candidate token. -/
def isEmailChar (c : Char) : Bool :=
  c.isAlphanum || c = '@' || c = '.' || c = '_' || c = '-' || c = '+'

/-- Modelled from the spec: syntactic shape test for an email candidate —
exactly one `@`, a nonempty local part, and a domain containing a dot and
not starting or ending with a dot. -/
def emailShaped (tok : List Char) : Bool :=
  (tok.filter (fun c => c = '@')).length = 1 &&
  (let local_ := tok.takeWhile (fun c => c ≠ '@')
   let domain := (tok.dropWhile (fun c => c ≠ '@')).drop 1
   !local_.isEmpty && !domain.isEmpty &&
   domain.any (fun c => c = '.') &&
   domain.head? ≠ some '.' && domain.getLast? ≠ some '.')

/-- Numeric value of an IBAN character (A=10 .. Z=35, digits as
themselves), per the IBAN mod-97 scheme. -/
def ibanCharVal (c : Char) : Nat :=
  if c.isDigit then c.toNat - '0'.toNat else c.toNat - 'A'.toNat + 10

/-- Running mod-97 of the IBAN digit expansion: letters contribute two
decimal digits, digits one. -/
def ibanMod97 (acc : Nat) : List Char → Nat
  | [] => acc
  | c :: cs =>
    if c.isDigit then ibanMod97 ((acc * 10 + ibanCharVal c) % 97) cs
    else ibanMod97 ((acc * 100 + ibanCharVal c) % 97) cs

/-- Modelled from the spec: syntactic shape test for an IBAN candidate —
two uppercase letters, two digits, then uppercase alphanumerics, total
length between 15 and 34. -/
def ibanShaped (tok : List Char) : Bool :=
  15 ≤ tok.length && tok.length ≤ 34 &&
  (match tok with
   | c0 :: c1 :: c2 :: c3 :: rest =>
     c0.isUpper && c1.isUpper && c2.isDigit && c3.isDigit &&
     rest.all (fun c => c.isUpper || c.isDigit)
   | _ => false)

/-- Modelled from the spec: IBAN mod-97 checksum — move the first four
characters to the end, expand letters to numbers, remainder must be 1. -/
def ibanChecksum (tok : List Char) : Bool :=
  ibanMod97 0 (tok.drop 4 ++ tok.take 4) = 1

/-- Modelled from the spec: shape test for a Dutch BSN candidate — exactly
nine digits. -/
def bsnShaped (tok : List Char) : Bool :=
  tok.length = 9 && tok.all (fun c => c.isDigit)

/-- Modelled from the spec: the Dutch `elfproef` check-digit test — the
weighted digit sum 9·d1 + 8·d2 + … + 2·d8 + 10·d9 must be divisible by 11
(the last weight 10 is congruent to the usual −1 modulo 11). -/
def bsnChecksum (tok : List Char) : Bool :=
  match tok with
  | [d1, d2, d3, d4, d5, d6, d7, d8, d9] =>
    (9 * (d1.toNat - '0'.toNat) + 8 * (d2.toNat - '0'.toNat) +
     7 * (d3.toNat - '0'.toNat) + 6 * (d4.toNat - '0'.toNat) +
     5 * (d5.toNat - '0'.toNat) + 4 * (d6.toNat - '0'.toNat) +
     3 * (d7.toNat - '0'.toNat) + 2 * (d8.toNat - '0'.toNat) +
     10 * (d9.toNat - '0'.toNat)) % 11 = 0
  | _ => false

/-- Build a pattern Match from a located token (pattern matches have
confidence fixed at 1.0, modelled as 100). -/
def mkMatch (cat : Category) (s : Nat) (tok : List Char) : Match :=
  ⟨s, s + tok.length, tok, cat, .patterns, 100⟩

/-- Modelled from the spec: the email matcher of the pattern library. -/
def emailMatches (text : List Char) : List Match :=
  (tokenize isEmailChar text).filterMap fun st =>
    if emailShaped st.2 then some (mkMatch .EMAIL st.1 st.2) else none

/-- Modelled from the spec: the IBAN matcher of the pattern library;
checksum-invalid candidates are rejected here, not reported. -/
def ibanMatches (text : List Char) : List Match :=
  (tokenize (fun c => c.isAlphanum) text).filterMap fun st =>
    if ibanShaped st.2 && ibanChecksum st.2 then some (mkMatch .IBAN st.1 st.2) else none

/-- Modelled from the spec: the Dutch BSN national-ID matcher;
checksum-invalid candidates are rejected here, not reported. -/
def bsnMatches (text : List Char) : List Match :=
  (tokenize (fun c => c.isDigit) text).filterMap fun st =>
    if bsnShaped st.2 && bsnChecksum st.2 then some (mkMatch .NATIONAL_ID st.1 st.2) else none

/-- Modelled from the spec: the `patterns` detector — runs the pattern
library for the language; national-ID rules are per-country (BSN for
`nl`), email and IBAN apply to every language including the fallback. -/
def patternDetect (lang : Lang) (text : List Char) : List Match :=
  emailMatches text ++ ibanMatches text ++
  (if lang = .nl then bsnMatches text else [])

/-- Modelled from the spec: the `statistical` detector delegates to an
external NER collaborator; when the collaborator is unavailable it
returns an empty sequence, never an error.  The collaborator is outside
the repository, so the model represents the degraded (unavailable)
environment. -/
def statisticalDetect (_lang : Lang) (_text : List Char) : List Match := []

/-- Detection backends. -/
inductive Backend where
  | patterns
  | hybrid
deriving DecidableEq, Repr

/-- Modelled from the spec: `detect(text, language)` for a backend —
`patterns` runs the pattern library only, `hybrid` concatenates pattern
and statistical results. -/
def detect (backend : Backend) (lang : Lang) (text : List Char) : List Match :=
  match backend with
  | .patterns => patternDetect lang text
  | .hybrid => patternDetect lang text ++ statisticalDetect lang text

/-! ## Span resolver (modelled from the spec)

Sort matches by `(start, -length, -confidence, source)` and greedily
accept a match when its range does not intersect any already accepted
span. -/

/-- Length of a match's range. -/
def mlen (m : Match) : Nat := m.stop - m.start

/-- Tie-break rank of a source: `patterns` is preferred over
`statistical`. -/
def srcRank : MSource → Nat
  | .patterns => 0
  | .statistical => 1

/-- Modelled from the spec: the resolver's sort order — by start
ascending, then length descending, then confidence descending, then
`patterns` before `statistical`. -/
def mle (a b : Match) : Prop :=
  a.start < b.start ∨
  (a.start = b.start ∧
    (mlen b < mlen a ∨
      (mlen a = mlen b ∧
        (b.conf < a.conf ∨ (a.conf = b.conf ∧ srcRank a.source ≤ srcRank b.source)))))

instance : DecidableRel mle := fun a b => by
  dsimp [mle]; infer_instance

/-- Two ranges `[start, stop)` intersect. -/
def overlaps (a b : Match) : Bool :=
  decide (a.start < b.stop) && decide (b.start < a.stop)

/-- Modelled from the spec: greedy interval scheduling — iterate the
sorted matches, accepting each one whose range does not intersect any
already accepted span.  `acc` holds accepted spans, most recent first. -/
def accept : List Match → List Match → List Match
  | acc, [] => acc.reverse
  | acc, m :: rest =>
    if acc.any (fun a => overlaps a m) then accept acc rest
    else accept (m :: acc) rest

/-- Modelled from the spec: `resolve(matches)` — deterministic sort
followed by the greedy non-overlap pass. -/
def resolve (ms : List Match) : List Match :=
  accept [] (ms.insertionSort mle)

/-! ## Canonicalizer and mapping build (modelled from the spec)

Spans whose normalized text is equal, or token-level related, or equal
after stripping honorifics, join one Entity per category; the canonical
form is the longest variation seen (first-seen on ties); placeholders
`CATEGORY_NNN` are numbered per category in first-encounter order while
scanning the resolved spans left to right. -/

/-- Strip the accents the model covers and lowercase a character
(spec: case-folded, diacritics-stripped normalization). -/
def foldChar (c : Char) : Char :=
  let c := c.toLower
  if c = 'é' || c = 'è' || c = 'ê' || c = 'ë' then 'e'
  else if c = 'á' || c = 'à' || c = 'â' || c = 'ä' then 'a'
  else if c = 'í' || c = 'ì' || c = 'î' || c = 'ï' then 'i'
  else if c = 'ó' || c = 'ò' || c = 'ô' || c = 'ö' then 'o'
  else if c = 'ú' || c = 'ù' || c = 'û' || c = 'ü' then 'u'
  else if c = 'ç' then 'c'
  else if c = 'ñ' then 'n'
  else c

/-- Collapse runs of spaces to a single space and trim the ends. -/
def collapseWS (s : List Char) : List Char :=
  let step : Char → List Char → List Char := fun c rest =>
    if c = ' ' then
      (if rest.head? = some ' ' || rest.isEmpty then rest else ' ' :: rest)
    else c :: rest
  (s.foldr step []).dropWhile (fun c => c = ' ')

/-- Modelled from the spec: text normalization — case-folded,
diacritics-stripped, whitespace-collapsed. -/
def normalize (s : List Char) : List Char :=
  collapseWS (s.map foldChar)

/-- Split a normalized string into space-separated tokens. -/
def wsplitAux : List Char → List Char → List (List Char)
  | [], acc => if acc.isEmpty then [] else [acc.reverse]
  | c :: cs, acc =>
    if c = ' ' then
      (if acc.isEmpty then wsplitAux cs [] else acc.reverse :: wsplitAux cs [])
    else wsplitAux cs (c :: acc)

/-- Space-separated tokens of a string. -/
def wsplit (s : List Char) : List (List Char) := wsplitAux s []

/-- Honorifics stripped before comparing mentions. -/
def honorifics : List (List Char) :=
  ["mr".toList, "mrs".toList, "ms".toList, "dr".toList, "dhr".toList,
   "mevr".toList, "prof".toList]

/-- Drop a leading honorific token. -/
def dropHonorific (toks : List (List Char)) : List (List Char) :=
  match toks with
  | [] => []
  | t :: rest => if honorifics.contains t then rest else toks

/-- One token list is a prefix or suffix of the other, token-wise. -/
def tokensRelated (a b : List (List Char)) : Bool :=
  a.isPrefixOf b || b.isPrefixOf a || a.isSuffixOf b || b.isSuffixOf a

/-- Modelled from the spec: two normalized mentions belong to the same
entity — equal, or one a token-level prefix/suffix of the other, or
identical after stripping honorifics. -/
def groupMatch (na nb : List Char) : Bool :=
  na == nb || tokensRelated (wsplit na) (wsplit nb) ||
  dropHonorific (wsplit na) == dropHonorific (wsplit nb)

/-- Modelled from the spec: a canonical sensitive value — chosen
representative string, category, literal variations in first-seen order,
and the number of substitutions made. -/
structure Entity where
  canonical : List Char
  category : Category
  variations : List (List Char)
  occurrences : Nat
deriving DecidableEq, Repr

/-- Zero-pad a placeholder number to three digits. -/
def pad3 (n : Nat) : List Char :=
  if n < 10 then '0' :: '0' :: Nat.toDigits 10 n
  else if n < 100 then '0' :: Nat.toDigits 10 n
  else Nat.toDigits 10 n

/-- Modelled from the spec: placeholder naming — `CATEGORY_NNN` with the
number zero-padded starting at 001. -/
def mkPlaceholder (c : Category) (n : Nat) : List Char :=
  catName c ++ '_' :: pad3 n

/-- Find the placeholder of the entity a span's normalized text groups
with, scanning entries in insertion order. -/
def findGroup (cat : Category) (norm : List Char) :
    List (List Char × Entity) → Option (List Char)
  | [] => none
  | (k, e) :: rest =>
    if cat = e.category && e.variations.any (fun v => groupMatch (normalize v) norm) then
      some k
    else findGroup cat norm rest

/-- Record one more occurrence of `t` on an entity: count it, add the
variation if new, and promote it to canonical if strictly longer
(canonical is the longest variation, first-seen on ties). -/
def bumpEntity (e : Entity) (t : List Char) : Entity :=
  ⟨if e.canonical.length < t.length then t else e.canonical,
   e.category,
   if e.variations.contains t then e.variations else e.variations ++ [t],
   e.occurrences + 1⟩

/-- Apply `bumpEntity` to the entry holding key `k`. -/
def updateEntry (k : List Char) (t : List Char) :
    List (List Char × Entity) → List (List Char × Entity)
  | [] => []
  | (k', e) :: rest =>
    if k' = k then (k', bumpEntity e t) :: rest
    else (k', e) :: updateEntry k t rest

/-- State of the mapping build: the entry table in insertion order, the
per-category counters, and the placeholder assigned to each processed
span (most recent first). -/
structure BuildSt where
  entries : List (List Char × Entity)
  counters : Category → Nat
  keysRev : List (Match × List Char)

/-- Modelled from the spec: process one resolved span — join an existing
entity or create a new one, assigning the next per-category placeholder
number at first encounter. -/
def buildStep (st : BuildSt) (m : Match) : BuildSt :=
  match findGroup m.category (normalize m.text) st.entries with
  | some k => ⟨updateEntry k m.text st.entries, st.counters, (m, k) :: st.keysRev⟩
  | none =>
    let n := st.counters m.category + 1
    let k := mkPlaceholder m.category n
    ⟨st.entries ++ [(k, ⟨m.text, m.category, [m.text], 1⟩)],
     fun c => if c = m.category then n else st.counters c,
     (m, k) :: st.keysRev⟩

/-- Modelled from the spec: build the entry table from the resolved spans,
scanning left to right. -/
def buildSpans (spans : List Match) : BuildSt :=
  spans.foldl buildStep ⟨[], fun _ => 0, []⟩

/-! ## Mapping, encoder and decoder (modelled from the spec) -/

/-- Format tag of the persisted mapping form. -/
def mappingFormatVersion : List Char := "1.0".toList

/-- Modelled from the spec: the reversible artifact — a version tag, an
informational creation timestamp, and the placeholder-to-entity entry
table. -/
structure Mapping where
  version : List Char
  created : List Char
  entries : List (List Char × Entity)
deriving DecidableEq, Repr

/-- One piece of the substitution pass: either a retained segment of the
original text, or a substituted span carrying its placeholder key and the
original literal it replaced. -/
inductive Chunk where
  | seg (s : List Char)
  | ph (key : List Char) (orig : List Char)
deriving DecidableEq, Repr

/-- The sanitized text of a chunk list (segments kept, spans replaced by
their placeholder keys). -/
def flattenSan : List Chunk → List Char
  | [] => []
  | .seg s :: rest => s ++ flattenSan rest
  | .ph k _ :: rest => k ++ flattenSan rest

/-- The original text of a chunk list (segments kept, spans restored to
their original literals). -/
def flattenOrig : List Chunk → List Char
  | [] => []
  | .seg s :: rest => s ++ flattenOrig rest
  | .ph _ o :: rest => o ++ flattenOrig rest

/-- Modelled from the spec: the single left-to-right substitution pass —
cut the text at the resolved spans using the pre-substitution offsets,
keeping each span's placeholder in place of its literal.  `cur` is the
offset the pass has consumed up to. -/
def buildChunks (text : List Char) : Nat → List (Match × List Char) → List Chunk
  | cur, [] => [.seg (text.drop cur)]
  | cur, (m, k) :: rest =>
    .seg ((text.drop cur).take (m.start - cur)) :: .ph k m.text ::
      buildChunks text m.stop rest

/-- The resolved spans of one encode call. -/
def encodeSpans (backend : Backend) (lang : Lang) (text : List Char) : List Match :=
  resolve (detect backend lang text)

/-- The mapping-build state of one encode call. -/
def encodeBuild (backend : Backend) (lang : Lang) (text : List Char) : BuildSt :=
  buildSpans (encodeSpans backend lang text)

/-- The substitution chunks of one encode call. -/
def encodeChunks (backend : Backend) (lang : Lang) (text : List Char) : List Chunk :=
  buildChunks text 0 (encodeBuild backend lang text).keysRev.reverse

/-- Modelled from the spec: `encode(text, language, backend,
strategy=replace)` — detection, resolution, canonicalization, mapping
build, then the substitution pass; returns the sanitized text and the
Mapping.  The `created` timestamp is informational only and is left
empty. -/
def encode (backend : Backend) (lang : Lang) (text : List Char) : List Char × Mapping :=
  (flattenSan (encodeChunks backend lang text),
   ⟨mappingFormatVersion, [], (encodeBuild backend lang text).entries⟩)

/-- First entry whose (nonempty) key starts the given text, paired with
its canonical value. -/
def findKey : List (List Char × Entity) → List Char → Option (List Char × List Char)
  | [], _ => none
  | (k, e) :: rest, s =>
    if !k.isEmpty && k.isPrefixOf s then some (k, e.canonical)
    else findKey rest s

/-- The decoder's scan with explicit fuel (any fuel at least the length
of the text gives the scan's result; every step consumes at least one
character). -/
def decodeGo (entries : List (List Char × Entity)) : Nat → List Char → List Char
  | _, [] => []
  | 0, s => s
  | fuel + 1, c :: rest =>
    match findKey entries (c :: rest) with
    | some (k, canon) => canon ++ decodeGo entries fuel (rest.drop (k.length - 1))
    | none => c :: decodeGo entries fuel rest

/-- Modelled from the spec: the decoder's scan — at each position, if a
mapping key starts here, emit its canonical value and skip the key,
otherwise copy the character.  Placeholders absent from the mapping pass
through unchanged. -/
def decodeAux (entries : List (List Char × Entity)) (s : List Char) : List Char :=
  decodeGo entries s.length s

/-- Modelled from the spec: `decode(text, mapping)` — a pure
lookup-and-substitute pass over the text using only the Mapping. -/
def decodeFn (text : List Char) (m : Mapping) : List Char :=
  decodeAux m.entries text

/-- Executable check that the decoder's scan finds no mapping key at any
position inside `s` when `t` follows it. -/
def segSafe (entries : List (List Char × Entity)) : List Char → List Char → Bool
  | [], _ => true
  | c :: s, t => (findKey entries (c :: (s ++ t))).isNone && segSafe entries s t

/-- Executable check that a substitution is collision-free for decoding:
scanning the sanitized text, the mapping keys are found exactly at the
substituted placeholder positions, each resolving to the literal it
replaced (so each substituted span's literal is its entity's canonical
value). -/
def chunksSafe (entries : List (List Char × Entity)) : List Chunk → Bool
  | [] => true
  | .seg s :: rest => segSafe entries s (flattenSan rest) && chunksSafe entries rest
  | .ph k orig :: rest =>
    (match findKey entries (k ++ flattenSan rest) with
     | some kc => kc.1 = k && kc.2 = orig
     | none => false) &&
    !k.isEmpty && chunksSafe entries rest

/-- A match is valid for a text: a nonempty range whose recorded literal
is the corresponding slice of the text. -/
def MValid (text : List Char) (m : Match) : Prop :=
  m.start < m.stop ∧ m.text = (text.drop m.start).take (m.stop - m.start)

/-- The spans of a list start at or after `cur` and follow each other
without overlap. -/
def MChain : Nat → List Match → Prop
  | _, [] => True
  | cur, m :: rest => cur ≤ m.start ∧ MChain m.stop rest

/-- Two matches do not intersect. -/
def noOv (a b : Match) : Prop := overlaps a b = false

/-- The placeholder keys of the entries of category `c`, in entry
insertion order. -/
def keysOfCat (c : Category) (l : List (List Char × Entity)) : List (List Char) :=
  (l.filter (fun p => decide (p.2.category = c))).map Prod.fst

/-! ## Mapping persistence (modelled from the spec)

The persisted form is an object with fields `version` (string),
`created` (ISO-8601 timestamp string) and `entries` (placeholder string
to entity record).  Loading a malformed or version-incompatible file
fails with `MappingFormatError` and must not partially populate. -/

/-- A JSON-like persisted value. -/
inductive JVal where
  | str (s : List Char)
  | num (n : Nat)
  | arr (xs : List JVal)
  | obj (fields : List (List Char × JVal))

/-- Modelled from the spec: the error a corrupt or incompatible persisted
Mapping raises; fatal to the load call. -/
inductive MappingFormatError where
  | notAnObject
  | missingField (name : List Char)
  | badVersion
  | badCreated
  | badEntries
  | badEntry (key : List Char)
deriving DecidableEq, Repr

/-- Look up a field of a persisted object. -/
def jget (fields : List (List Char × JVal)) (name : List Char) : Option JVal :=
  match fields with
  | [] => none
  | (k, v) :: rest => if k = name then some v else jget rest name

/-- Parse a category name back to the enum. -/
def parseCategory (s : List Char) : Option Category :=
  if s = catName .PERSON then some .PERSON
  else if s = catName .LOCATION then some .LOCATION
  else if s = catName .EMAIL then some .EMAIL
  else if s = catName .PHONE then some .PHONE
  else if s = catName .IBAN then some .IBAN
  else if s = catName .NATIONAL_ID then some .NATIONAL_ID
  else if s = catName .DATE then some .DATE
  else if s = catName .OTHER then some .OTHER
  else none

/-- Parse the variations array: every element must be a string. -/
def parseVariations : List JVal → Option (List (List Char))
  | [] => some []
  | .str s :: rest => (parseVariations rest).map (fun vs => s :: vs)
  | _ => none

/-- Parse one persisted entry record into an Entity; any shape error
fails. -/
def parseEntry (key : List Char) (v : JVal) : Except MappingFormatError Entity :=
  match v with
  | .obj fields =>
    match jget fields "canonical".toList, jget fields "category".toList,
          jget fields "variations".toList, jget fields "occurrences".toList with
    | some (.str canon), some (.str cat), some (.arr vars), some (.num occ) =>
      match parseCategory cat, parseVariations vars with
      | some c, some vs => .ok ⟨canon, c, vs, occ⟩
      | _, _ => .error (.badEntry key)
    | _, _, _, _ => .error (.badEntry key)
  | _ => .error (.badEntry key)

/-- Parse the whole entry table; the first malformed entry fails the
load — entries are never silently dropped. -/
def parseEntries : List (List Char × JVal) → Except MappingFormatError (List (List Char × Entity))
  | [] => .ok []
  | (k, v) :: rest =>
    match parseEntry k v with
    | .ok e =>
      match parseEntries rest with
      | .ok es => .ok ((k, e) :: es)
      | .error err => .error err
    | .error err => .error err

/-- Modelled from the spec: `Mapping.load` — reject anything that is not
an object, an unrecognized `version`, a malformed `created` or `entries`
field, or any malformed entry, with `MappingFormatError`; otherwise
reconstruct the full Mapping.  The `Except` result is all-or-nothing: no
partially-constructed Mapping is observable. -/
def loadMapping (doc : JVal) : Except MappingFormatError Mapping :=
  match doc with
  | .obj fields =>
    match jget fields "version".toList with
    | none => .error (.missingField "version".toList)
    | some (.str v) =>
      if v = mappingFormatVersion then
        match jget fields "created".toList with
        | some (.str created) =>
          match jget fields "entries".toList with
          | some (.obj entryFields) =>
            match parseEntries entryFields with
            | .ok entries => .ok ⟨v, created, entries⟩
            | .error err => .error err
          | some _ => .error .badEntries
          | none => .error (.missingField "entries".toList)
        | some _ => .error .badCreated
        | none => .error (.missingField "created".toList)
      else .error .badVersion
    | some _ => .error .badVersion
  | _ => .error .notAnObject

/-- The version check `loadMapping` enforces, as an executable test. -/
def versionOkB (doc : JVal) : Bool :=
  match doc with
  | .obj fields =>
    match jget fields "version".toList with
    | some (.str v) => v = mappingFormatVersion
    | _ => false
  | _ => false

/-- Executable shape check of a persisted variations array: every element
is a string. -/
def varsOkB : List JVal → Bool
  | [] => true
  | .str _ :: rest => varsOkB rest
  | _ => false

/-- Executable shape check of one persisted entry record. -/
def entryOkB (v : JVal) : Bool :=
  match v with
  | .obj fields =>
    match jget fields "canonical".toList, jget fields "category".toList,
          jget fields "variations".toList, jget fields "occurrences".toList with
    | some (.str _), some (.str cat), some (.arr vars), some (.num _) =>
      (parseCategory cat).isSome && varsOkB vars
    | _, _, _, _ => false
  | _ => false

/-- Executable well-formedness check of a persisted mapping document:
recognized version, string `created`, object `entries` whose records all
have the entry shape. -/
def wellFormedB (doc : JVal) : Bool :=
  match doc with
  | .obj fields =>
    (match jget fields "version".toList with
     | some (.str v) => v = mappingFormatVersion
     | _ => false) &&
    (match jget fields "created".toList with
     | some (.str _) => true
     | _ => false) &&
    (match jget fields "entries".toList with
     | some (.obj efs) => efs.all (fun kv => entryOkB kv.2)
     | _ => false)
  | _ => false


/-! ## PDF converter (embedded from `docsanitizer/converter.py`)

The Python runtime is abstracted: each optional-library import attempt is
an `Except` value (an exception or success), the filesystem check is a
boolean, and a fitz document is a list of pages carrying the text native
extraction would return and the text OCR would return (`none` when
`_ocr_page` swallows an exception and returns `None`). -/

/-- An arbitrary Python exception raised by an import attempt
(ImportError, ValueError from numpy compatibility, etc.). -/
structure PyExc where
  msg : List Char
deriving DecidableEq, Repr

deriving instance DecidableEq for Except

/-- Outcomes of the three optional-library import probes. -/
structure ConvProbes where
  marker : Except PyExc Unit
  pymupdf : Except PyExc Unit
  tesseract : Except PyExc Unit
deriving DecidableEq, Repr

/-- From `_check_marker_available`: try the import, catch all errors and
report `False`. -/
def check_marker_available (r : Except PyExc Unit) : Bool :=
  match r with
  | .ok _ => true
  | .error _ => false

/-- From `_check_pymupdf_available`: try the import, catch all errors and
report `False`. -/
def check_pymupdf_available (r : Except PyExc Unit) : Bool :=
  match r with
  | .ok _ => true
  | .error _ => false

/-- From `_check_tesseract_available`: try the imports and the tesseract
binary probe, catch all errors and report `False`. -/
def check_tesseract_available (r : Except PyExc Unit) : Bool :=
  match r with
  | .ok _ => true
  | .error _ => false

/-- From `get_available_converters`: the dict of converter availability,
with keys `marker`, `pymupdf`, `tesseract`. -/
def get_available_converters (p : ConvProbes) : List (String × Bool) :=
  [("marker", check_marker_available p.marker),
   ("pymupdf", check_pymupdf_available p.pymupdf),
   ("tesseract", check_tesseract_available p.tesseract)]

/-- Dict access `available[key]` (keys are always present). -/
def getAvail (d : List (String × Bool)) (key : String) : Bool :=
  (d.lookup key).getD false

/-- One fitz page: the text native extraction returns, and the text
`_ocr_page` returns (`none` when it catches an exception). -/
structure Page where
  native : List Char
  ocr : Option (List Char)
deriving DecidableEq, Repr

/-- Python `str.strip()`: drop leading and trailing whitespace. -/
def pyStrip (s : List Char) : List Char :=
  ((s.dropWhile Char.isWhitespace).reverse.dropWhile Char.isWhitespace).reverse

/-- Python number-to-decimal-digits rendering for page markers. -/
def natDigits (n : Nat) : List Char := Nat.toDigits 10 n

/-- The page banner `--- Page N ---\n` prepended to each page's text. -/
def pageBanner (n : Nat) : List Char :=
  "--- Page ".toList ++ natDigits n ++ " ---\n".toList

/-- The per-page branch of `convert_with_pymupdf_tesseract`: the text kept
for the page and whether the page counts as OCR (true) or native
(false). -/
def pageResult (p : Page) : List Char × Bool :=
  if (pyStrip p.native).length < 50 then
    match p.ocr with
    | some ocr_text =>
      if !ocr_text.isEmpty && (pyStrip p.native).length < (pyStrip ocr_text).length then
        (ocr_text, true)
      else (p.native, false)
    | none => (p.native, false)
  else (p.native, false)

/-- Metadata returned by `convert_with_pymupdf_tesseract`. -/
structure TessMeta where
  total_pages : Nat
  native_pages : Nat
  ocr_pages : Nat
deriving DecidableEq, Repr

/-- The page loop of `convert_with_pymupdf_tesseract`: accumulate banner
plus kept text per page and bump exactly one of the two counters. -/
def tessLoop : List Page → Nat → List (List Char) → Nat → Nat →
    List (List Char) × Nat × Nat
  | [], _, acc, nat_, ocr_ => (acc.reverse, nat_, ocr_)
  | p :: rest, n, acc, nat_, ocr_ =>
    tessLoop rest (n + 1) ((pageBanner (n + 1) ++ (pageResult p).1) :: acc)
      (if (pageResult p).2 then nat_ else nat_ + 1)
      (if (pageResult p).2 then ocr_ + 1 else ocr_)

/-- From `convert_with_pymupdf_tesseract`: native extraction per page with
an OCR retry for near-empty pages, joined with blank lines; the metadata
reports the converter name implicitly and the three page counters. -/
def convert_with_pymupdf_tesseract (pages : List Page) : List Char × TessMeta :=
  (List.intercalate "\n\n".toList (tessLoop pages 0 [] 0 0).1,
   ⟨(tessLoop pages 0 [] 0 0).1.length,
    (tessLoop pages 0 [] 0 0).2.1,
    (tessLoop pages 0 [] 0 0).2.2⟩)

/-- Errors `convert_pdf` raises. -/
inductive ConvError where
  | fileNotFoundError
  | importError
  | valueError
deriving DecidableEq, Repr

/-- Metadata of a `convert_pdf` result, by converter used. -/
inductive ConvMeta where
  | marker (pages : Option Nat)
  | tess (meta : TessMeta)
  | pymupdfOnly
deriving DecidableEq, Repr

/-- The abstracted environment of one `convert_pdf` call. -/
structure PdfEnv where
  pdfExists : Bool
  probes : ConvProbes
  markerText : List Char
  markerPages : Option Nat
  pages : List Page
deriving DecidableEq, Repr

/-- From `convert_with_marker`: the marker-pdf conversion, abstracted as
the text and page count the library returns. -/
def convert_with_marker (env : PdfEnv) : List Char × ConvMeta :=
  (env.markerText, .marker env.markerPages)

/-- The pymupdf-only branch of `convert_pdf`: native text of every page,
each followed by a blank line, no OCR. -/
def pymupdfOnlyText : List Page → List Char
  | [] => []
  | p :: rest => p.native ++ "\n\n".toList ++ pymupdfOnlyText rest

/-- From `convert_pdf`: existence check, `auto` backend selection,
availability guards, then dispatch to the selected converter; unknown
backends raise `ValueError`.  File output and page splitting are caller
conveniences outside the abstracted environment. -/
def convert_pdf (env : PdfEnv) (backend : String) : Except ConvError (List Char × ConvMeta) :=
  if !env.pdfExists then .error .fileNotFoundError
  else
    let available := get_available_converters env.probes
    let sel : Except ConvError String :=
      if backend = "auto" then
        if getAvail available "marker" then .ok "marker"
        else if getAvail available "pymupdf" && getAvail available "tesseract" then .ok "tesseract"
        else if getAvail available "pymupdf" then .ok "pymupdf"
        else .error .importError
      else .ok backend
    match sel with
    | .error e => .error e
    | .ok b =>
      if b = "marker" then
        if !(getAvail available "marker") then .error .importError
        else .ok (convert_with_marker env)
      else if b = "tesseract" then
        if !(getAvail available "pymupdf") then .error .importError
        else
          let r := convert_with_pymupdf_tesseract env.pages
          .ok (r.1, .tess r.2)
      else if b = "pymupdf" then
        .ok (pymupdfOnlyText env.pages, .pymupdfOnly)
      else .error .valueError

/-! ## Decoder lemmas -/

theorem decodeGo_fuel (entries : List (List Char × Entity)) :
    ∀ (fuel : Nat) (s : List Char) (fuel' : Nat),
      s.length ≤ fuel → s.length ≤ fuel' →
      decodeGo entries fuel s = decodeGo entries fuel' s := by
  intro fuel
  induction fuel with
  | zero =>
    intro s fuel' hf _
    have hs : s = [] := List.length_eq_zero.mp (Nat.le_zero.mp hf)
    subst hs
    cases fuel' <;> rfl
  | succ fuel ih =>
    intro s fuel' hf hf'
    cases s with
    | nil => cases fuel' <;> rfl
    | cons c rest =>
      cases fuel' with
      | zero => simp at hf'
      | succ f' =>
        rw [decodeGo, decodeGo]
        cases hfk : findKey entries (c :: rest) with
        | some kc =>
          obtain ⟨k, canon⟩ := kc
          have hlen : (rest.drop (k.length - 1)).length ≤ fuel := by
            rw [List.length_drop]
            simp at hf
            omega
          have hlen' : (rest.drop (k.length - 1)).length ≤ f' := by
            rw [List.length_drop]
            simp at hf'
            omega
          dsimp only
          rw [ih _ f' hlen hlen']
        | none =>
          have hlen : rest.length ≤ fuel := by simp at hf; omega
          have hlen' : rest.length ≤ f' := by simp at hf'; omega
          dsimp only
          rw [ih _ f' hlen hlen']

theorem decodeAux_nil (entries : List (List Char × Entity)) :
    decodeAux entries [] = [] := by
  simp [decodeAux, decodeGo]

theorem decodeAux_cons (entries : List (List Char × Entity)) (c : Char) (rest : List Char) :
    decodeAux entries (c :: rest) =
      match findKey entries (c :: rest) with
      | some (k, canon) => canon ++ decodeAux entries (rest.drop (k.length - 1))
      | none => c :: decodeAux entries rest := by
  rw [decodeAux, List.length_cons, decodeGo]
  cases hfk : findKey entries (c :: rest) with
  | some kc =>
    obtain ⟨k, canon⟩ := kc
    rw [decodeAux]
    dsimp only
    rw [decodeGo_fuel entries rest.length (rest.drop (k.length - 1))
      (rest.drop (k.length - 1)).length (by rw [List.length_drop]; omega) (Nat.le_refl _)]
    rfl
  | none =>
    rw [decodeAux]

/-- A segment that the scan finds no key inside passes through the
decoder unchanged. -/
theorem decodeAux_safe_append (entries : List (List Char × Entity)) (t : List Char)
    (s : List Char) (h : segSafe entries s t = true) :
    decodeAux entries (s ++ t) = s ++ decodeAux entries t := by
  induction s with
  | nil => simp
  | cons c s ih =>
    simp only [segSafe, Bool.and_eq_true, Option.isNone_iff_eq_none] at h
    rw [List.cons_append, decodeAux_cons, h.1, ih h.2]
    rfl

/-- A key found at the head of the scan is replaced by its canonical
value and skipped. -/
theorem decodeAux_key (entries : List (List Char × Entity)) {k canon : List Char}
    (t : List Char) (hk : k ≠ []) (h : findKey entries (k ++ t) = some (k, canon)) :
    decodeAux entries (k ++ t) = canon ++ decodeAux entries t := by
  cases k with
  | nil => exact absurd rfl hk
  | cons c k1 =>
    rw [List.cons_append] at h
    rw [List.cons_append, decodeAux_cons, h]
    have hd : (k1 ++ t).drop ((c :: k1).length - 1) = t := by
      simp [List.drop_left]
    show canon ++ decodeAux entries ((k1 ++ t).drop ((c :: k1).length - 1)) =
      canon ++ decodeAux entries t
    rw [hd]

/-- Decoding a collision-free substitution restores the original text of
every chunk. -/
theorem decodeAux_chunks (entries : List (List Char × Entity)) (chunks : List Chunk)
    (h : chunksSafe entries chunks = true) :
    decodeAux entries (flattenSan chunks) = flattenOrig chunks := by
  induction chunks with
  | nil => simp [flattenSan, flattenOrig, decodeAux_nil]
  | cons ch rest ih =>
    cases ch with
    | seg s =>
      simp only [chunksSafe, Bool.and_eq_true] at h
      rw [flattenSan, flattenOrig, decodeAux_safe_append entries _ s h.1, ih h.2]
    | ph k orig =>
      simp only [chunksSafe, Bool.and_eq_true] at h
      obtain ⟨⟨hfind, hne⟩, hrest⟩ := h
      have hk : k ≠ [] := by cases k <;> simp_all
      revert hfind
      cases hr : findKey entries (k ++ flattenSan rest) with
      | none => intro hfind; simp at hfind
      | some kc =>
        intro hfind
        simp only [decide_eq_true_eq, Bool.and_eq_true] at hfind
        have hr' : findKey entries (k ++ flattenSan rest) = some (k, orig) := by
          rw [hr, ← hfind.1, ← hfind.2]
        rw [flattenSan, flattenOrig, decodeAux_key entries (flattenSan rest) hk hr', ih hrest]

/-! ## Tokenizer soundness -/

theorem tokAux_sound (p : Char → Bool) (text : List Char) :
    ∀ (cs : List Char) (i : Nat) (acc : List Char),
      acc.length ≤ i →
      text.drop (i - acc.length) = acc.reverse ++ cs →
      ∀ s tok, (s, tok) ∈ tokAux p cs i acc →
        tok ≠ [] ∧ (text.drop s).take tok.length = tok := by
  intro cs
  induction cs with
  | nil =>
    intro i acc hle hinv s tok hmem
    cases acc with
    | nil => simp [tokAux] at hmem
    | cons a as =>
      simp only [tokAux, List.isEmpty_cons, List.mem_singleton, ite_false, Bool.false_eq_true,
        if_false, List.mem_cons, List.not_mem_nil, or_false] at hmem
      obtain ⟨hs, htok⟩ := Prod.mk.injEq .. ▸ hmem
      subst hs; subst htok
      refine ⟨by simp, ?_⟩
      rw [List.append_nil] at hinv
      rw [hinv]
      simp
  | cons c cs' ih =>
    intro i acc hle hinv s tok hmem
    by_cases hp : p c
    · simp only [tokAux, hp, if_true] at hmem
      have hle' : (c :: acc).length ≤ i + 1 := by simp at hle ⊢; omega
      have harith : (i + 1) - (c :: acc).length = i - acc.length := by
        simp
      have hinv' : text.drop ((i + 1) - (c :: acc).length) = (c :: acc).reverse ++ cs' := by
        rw [harith, hinv, List.reverse_cons, List.append_assoc]
        rfl
      exact ih (i + 1) (c :: acc) hle' hinv' s tok hmem
    · cases acc with
      | nil =>
        simp only [tokAux, hp, List.isEmpty_nil, if_false, if_true, Bool.false_eq_true] at hmem
        have hdi : text.drop i = c :: cs' := by
          simpa using hinv
        have hinv' : text.drop ((i + 1) - ([] : List Char).length) = ([] : List Char).reverse ++ cs' := by
          have : text.drop (i + 1) = cs' := by
            have h1 : (text.drop i).drop 1 = text.drop (i + 1) := List.drop_drop 1 i text
            rw [hdi] at h1
            simpa using h1.symm
          simpa using this
        exact ih (i + 1) [] (by simp) hinv' s tok hmem
      | cons a as =>
        simp only [tokAux, hp, List.isEmpty_cons, if_false, Bool.false_eq_true,
          List.mem_cons] at hmem
        rcases hmem with hmem | hmem
        · obtain ⟨hs, htok⟩ := Prod.mk.injEq .. ▸ hmem
          subst hs; subst htok
          refine ⟨by simp, ?_⟩
          rw [hinv]
          exact List.take_left _ _
        · have hdi : text.drop i = c :: cs' := by
            have h1 : (text.drop (i - (a :: as).length)).drop (a :: as).length =
                text.drop ((i - (a :: as).length) + (a :: as).length) :=
              List.drop_drop _ _ text
            rw [hinv] at h1
            have h2 : ((a :: as).reverse ++ c :: cs').drop (a :: as).length = c :: cs' := by
              have : ((a :: as).reverse).length = (a :: as).length := List.length_reverse _
              rw [← this, List.drop_left]
            rw [h2] at h1
            have h3 : (i - (a :: as).length) + (a :: as).length = i := by omega
            rw [h3] at h1
            exact h1.symm
          have hinv' : text.drop ((i + 1) - ([] : List Char).length) =
              ([] : List Char).reverse ++ cs' := by
            have : text.drop (i + 1) = cs' := by
              have h1 : (text.drop i).drop 1 = text.drop (i + 1) := List.drop_drop 1 i text
              rw [hdi] at h1
              simpa using h1.symm
            simpa using this
          exact ih (i + 1) [] (by simp) hinv' s tok hmem

/-- Every token the scanner reports is a nonempty, correctly located
slice of the text. -/
theorem tokenize_sound (p : Char → Bool) (text : List Char) {s : Nat} {tok : List Char}
    (hmem : (s, tok) ∈ tokenize p text) :
    tok ≠ [] ∧ (text.drop s).take tok.length = tok := by
  exact tokAux_sound p text text 0 [] (by simp) (by simp) s tok hmem

/-- Every match a tokenize-and-validate matcher reports is valid for the
text. -/
theorem filterMatches_valid (p : Char → Bool) (text : List Char)
    (f : Nat × List Char → Option Match)
    (hf : ∀ s tok m, f (s, tok) = some m → m = mkMatch m.category s tok)
    {m : Match} (hmem : m ∈ (tokenize p text).filterMap f) :
    MValid text m := by
  rw [List.mem_filterMap] at hmem
  obtain ⟨⟨s, tok⟩, hst, hfm⟩ := hmem
  obtain ⟨hne, hslice⟩ := tokenize_sound p text hst
  have hm := hf s tok m hfm
  constructor
  · rw [hm]
    simp only [mkMatch]
    have : 0 < tok.length := List.length_pos.mpr hne
    omega
  · rw [hm]
    simp only [mkMatch]
    have harith : s + tok.length - s = tok.length := by omega
    rw [harith, hslice]

/-! ## Pattern matcher soundness -/

theorem emailMatches_mem {text : List Char} {m : Match} (h : m ∈ emailMatches text) :
    ∃ s tok, (s, tok) ∈ tokenize isEmailChar text ∧ emailShaped tok = true ∧
      m = mkMatch .EMAIL s tok := by
  rw [emailMatches, List.mem_filterMap] at h
  obtain ⟨⟨s, tok⟩, hst, hfm⟩ := h
  dsimp at hfm
  split at hfm
  · exact ⟨s, tok, hst, by assumption, (Option.some.injEq .. ▸ hfm).symm⟩
  · simp at hfm

theorem ibanMatches_mem {text : List Char} {m : Match} (h : m ∈ ibanMatches text) :
    ∃ s tok, (s, tok) ∈ tokenize (fun c => c.isAlphanum) text ∧
      (ibanShaped tok && ibanChecksum tok) = true ∧ m = mkMatch .IBAN s tok := by
  rw [ibanMatches, List.mem_filterMap] at h
  obtain ⟨⟨s, tok⟩, hst, hfm⟩ := h
  dsimp at hfm
  split at hfm
  · exact ⟨s, tok, hst, by assumption, (Option.some.injEq .. ▸ hfm).symm⟩
  · simp at hfm

theorem bsnMatches_mem {text : List Char} {m : Match} (h : m ∈ bsnMatches text) :
    ∃ s tok, (s, tok) ∈ tokenize (fun c => c.isDigit) text ∧
      (bsnShaped tok && bsnChecksum tok) = true ∧ m = mkMatch .NATIONAL_ID s tok := by
  rw [bsnMatches, List.mem_filterMap] at h
  obtain ⟨⟨s, tok⟩, hst, hfm⟩ := h
  dsimp at hfm
  split at hfm
  · exact ⟨s, tok, hst, by assumption, (Option.some.injEq .. ▸ hfm).symm⟩
  · simp at hfm

theorem mkMatch_valid {p : Char → Bool} {text tok : List Char} {s : Nat} {cat : Category}
    (hst : (s, tok) ∈ tokenize p text) : MValid text (mkMatch cat s tok) := by
  obtain ⟨hne, hslice⟩ := tokenize_sound p text hst
  constructor
  · simp only [mkMatch]
    have : 0 < tok.length := List.length_pos.mpr hne
    omega
  · simp only [mkMatch]
    have harith : s + tok.length - s = tok.length := by omega
    rw [harith, hslice]

/-- Every match any detector backend produces is valid for the text. -/
theorem detect_valid {backend : Backend} {lang : Lang} {text : List Char} {m : Match}
    (h : m ∈ detect backend lang text) : MValid text m := by
  have hpat : m ∈ patternDetect lang text → MValid text m := by
    intro hp
    rw [patternDetect] at hp
    simp only [List.mem_append] at hp
    rcases hp with (he | hi) | hb
    · obtain ⟨s, tok, hst, _, hm⟩ := emailMatches_mem he
      exact hm ▸ mkMatch_valid hst
    · obtain ⟨s, tok, hst, _, hm⟩ := ibanMatches_mem hi
      exact hm ▸ mkMatch_valid hst
    · split at hb
      · obtain ⟨s, tok, hst, _, hm⟩ := bsnMatches_mem hb
        exact hm ▸ mkMatch_valid hst
      · simp at hb
  cases backend with
  | patterns => exact hpat h
  | hybrid =>
    rw [detect, statisticalDetect, List.append_nil] at h
    exact hpat h

/-! ## Resolver lemmas -/

theorem mle_total : ∀ a b : Match, mle a b ∨ mle b a := by
  intro a b
  simp only [mle]
  omega

instance : IsTotal Match mle := ⟨mle_total⟩

theorem mle_trans : ∀ a b c : Match, mle a b → mle b c → mle a c := by
  intro a b c h1 h2
  simp only [mle] at h1 h2 ⊢
  omega

instance : IsTrans Match mle := ⟨mle_trans⟩

theorem mle_start {a b : Match} (h : mle a b) : a.start ≤ b.start := by
  simp only [mle] at h
  omega

theorem overlaps_comm (a b : Match) : overlaps a b = overlaps b a := by
  simp only [overlaps]
  rw [Bool.and_comm]

theorem noOv_symm {a b : Match} (h : noOv a b) : noOv b a := by
  simp only [noOv] at h ⊢
  rw [overlaps_comm]
  exact h

theorem accept_mem : ∀ (l acc : List Match) (m : Match),
    m ∈ accept acc l → m ∈ acc ∨ m ∈ l := by
  intro l
  induction l with
  | nil =>
    intro acc m h
    rw [accept] at h
    exact .inl (List.mem_reverse.mp h)
  | cons x rest ih =>
    intro acc m h
    rw [accept] at h
    split at h
    · rcases ih acc m h with h' | h'
      · exact .inl h'
      · exact .inr (List.mem_cons_of_mem x h')
    · rcases ih (x :: acc) m h with h' | h'
      · rcases List.mem_cons.mp h' with h'' | h''
        · exact .inr (h'' ▸ List.mem_cons_self x rest)
        · exact .inl h''
      · exact .inr (List.mem_cons_of_mem x h')

theorem accept_pairwise : ∀ (l acc : List Match),
    acc.Pairwise noOv → (accept acc l).Pairwise noOv := by
  intro l
  induction l with
  | nil =>
    intro acc hacc
    rw [accept]
    rw [List.pairwise_reverse]
    exact hacc.imp (fun h => noOv_symm h)
  | cons x rest ih =>
    intro acc hacc
    rw [accept]
    split
    · exact ih acc hacc
    · refine ih (x :: acc) (List.pairwise_cons.mpr ⟨?_, hacc⟩)
      intro a ha
      have hnone : acc.any (fun a => overlaps a x) = false := by
        rename_i hcond
        exact Bool.not_eq_true _ ▸ (by simpa using hcond)
      have := List.any_eq_false.mp hnone a ha
      exact noOv_symm (by simpa [noOv] using this)

theorem accept_sorted : ∀ (l acc : List Match),
    acc.reverse.Sorted mle → l.Sorted mle →
    (∀ a ∈ acc, ∀ b ∈ l, mle a b) →
    (accept acc l).Sorted mle := by
  intro l
  induction l with
  | nil =>
    intro acc hacc _ _
    rw [accept]
    exact hacc
  | cons x rest ih =>
    intro acc hacc hl hab
    rw [accept]
    split
    · exact ih acc hacc (List.sorted_cons.mp hl).2
        (fun a ha b hb => hab a ha b (List.mem_cons_of_mem x hb))
    · refine ih (x :: acc) ?_ (List.sorted_cons.mp hl).2 ?_
      · rw [List.reverse_cons]
        rw [List.Sorted, List.pairwise_append]
        refine ⟨hacc, List.sorted_singleton x, ?_⟩
        intro a ha b hb
        rw [List.mem_singleton] at hb
        rw [hb]
        exact hab a (List.mem_reverse.mp ha) x (List.mem_cons_self x rest)
      · intro a ha b hb
        rcases List.mem_cons.mp ha with h' | h'
        · subst h'
          exact List.rel_of_sorted_cons hl b hb
        · exact hab a h' b (List.mem_cons_of_mem x hb)

/-- The resolver's output never contains two intersecting spans. -/
theorem resolve_pairwise (ms : List Match) : (resolve ms).Pairwise noOv := by
  rw [resolve]
  exact accept_pairwise _ [] List.Pairwise.nil

/-- The resolver's output is sorted by the resolver order. -/
theorem resolve_sorted (ms : List Match) : (resolve ms).Sorted mle := by
  rw [resolve]
  exact accept_sorted _ [] (by simp [List.Sorted]) (List.sorted_insertionSort mle ms)
    (by intro a ha; simp at ha)

/-- The resolver only returns matches it was given. -/
theorem resolve_subset {ms : List Match} {m : Match} (h : m ∈ resolve ms) : m ∈ ms := by
  rw [resolve] at h
  rcases accept_mem _ [] m h with h' | h'
  · simp at h'
  · exact (List.perm_insertionSort mle ms).mem_iff.mp h'

/-- Sorted, pairwise non-intersecting, valid spans form a chain. -/
theorem chain_of_sorted_pairwise : ∀ (l : List Match),
    l.Sorted mle → l.Pairwise noOv → (∀ m ∈ l, m.start < m.stop) →
    ∀ cur, (∀ m ∈ l, cur ≤ m.start) → MChain cur l := by
  intro l
  induction l with
  | nil => intro _ _ _ cur _; trivial
  | cons m rest ih =>
    intro hs hp hv cur hcur
    refine ⟨hcur m (List.mem_cons_self m rest), ?_⟩
    refine ih (List.sorted_cons.mp hs).2 (List.pairwise_cons.mp hp).2
      (fun n hn => hv n (List.mem_cons_of_mem m hn)) m.stop ?_
    intro n hn
    have hmn : mle m n := List.rel_of_sorted_cons hs n hn
    have hno : noOv m n := (List.pairwise_cons.mp hp).1 n hn
    have hstart : m.start ≤ n.start := mle_start hmn
    have hnv : n.start < n.stop := hv n (List.mem_cons_of_mem m hn)
    simp only [noOv, overlaps, Bool.and_eq_false_iff, decide_eq_false_iff_not] at hno
    omega

/-! ## Substitution pass lemmas -/

theorem buildSpans_keys : ∀ (spans : List Match) (st : BuildSt),
    ((spans.foldl buildStep st).keysRev).map Prod.fst =
      spans.reverse ++ st.keysRev.map Prod.fst := by
  intro spans
  induction spans with
  | nil => intro st; simp
  | cons m rest ih =>
    intro st
    rw [List.foldl_cons, ih]
    have hstep : (buildStep st m).keysRev.map Prod.fst = m :: st.keysRev.map Prod.fst := by
      cases hfg : findGroup m.category (normalize m.text) st.entries with
      | none => simp [buildStep, hfg]
      | some k => simp [buildStep, hfg]
    rw [hstep]
    simp

/-- Cutting a text at a chain of valid spans and flattening the original
sides of the chunks reproduces the text from the cursor on. -/
theorem buildChunks_orig (text : List Char) : ∀ (pairs : List (Match × List Char)) (cur : Nat),
    MChain cur (pairs.map Prod.fst) → (∀ q ∈ pairs, MValid text q.1) →
    flattenOrig (buildChunks text cur pairs) = text.drop cur := by
  intro pairs
  induction pairs with
  | nil =>
    intro cur _ _
    simp [buildChunks, flattenOrig]
  | cons q rest ih =>
    obtain ⟨m, k⟩ := q
    intro cur hchain hvalid
    simp only [List.map_cons, MChain] at hchain
    obtain ⟨hcm, hchain'⟩ := hchain
    obtain ⟨hlt, hslice⟩ := hvalid (m, k) (List.mem_cons_self _ _)
    dsimp only at hlt hslice
    rw [buildChunks, flattenOrig, flattenOrig]
    rw [ih m.stop hchain' (fun q hq => hvalid q (List.mem_cons_of_mem _ hq))]
    rw [hslice]
    have e1 : (text.drop m.start).take (m.stop - m.start) ++ text.drop m.stop =
        text.drop m.start := by
      have h := List.drop_take_append_drop text m.start (m.stop - m.start)
      have harith : m.start + (m.stop - m.start) = m.stop := by omega
      rw [harith] at h
      exact h
    rw [e1]
    have h2 := List.drop_take_append_drop text cur (m.start - cur)
    have harith2 : cur + (m.start - cur) = m.start := by omega
    rw [harith2] at h2
    exact h2

/-- The keys recorded by the mapping build are the resolved spans in
document order. -/
theorem encodeBuild_keys (backend : Backend) (lang : Lang) (text : List Char) :
    ((encodeBuild backend lang text).keysRev.reverse).map Prod.fst =
      encodeSpans backend lang text := by
  rw [encodeBuild, buildSpans, List.map_reverse, buildSpans_keys]
  simp

/-- The substitution pass loses nothing: flattening the original sides of
the encode chunks gives back the input text. -/
theorem encodeChunks_orig (backend : Backend) (lang : Lang) (text : List Char) :
    flattenOrig (encodeChunks backend lang text) = text := by
  rw [encodeChunks]
  have hvalid : ∀ q ∈ (encodeBuild backend lang text).keysRev.reverse, MValid text q.1 := by
    intro q hq
    have hq1 : q.1 ∈ encodeSpans backend lang text := by
      rw [← encodeBuild_keys backend lang text]
      exact List.mem_map_of_mem Prod.fst hq
    exact detect_valid (resolve_subset hq1)
  have hchain : MChain 0 (((encodeBuild backend lang text).keysRev.reverse).map Prod.fst) := by
    rw [encodeBuild_keys]
    refine chain_of_sorted_pairwise _ (resolve_sorted _) (resolve_pairwise _) ?_ 0 ?_
    · intro m hm
      exact (detect_valid (resolve_subset hm)).1
    · intro m _
      exact Nat.zero_le _
  have := buildChunks_orig text ((encodeBuild backend lang text).keysRev.reverse) 0 hchain hvalid
  rw [this, List.drop_zero]

/-! ## Claim theorems: resolver and round trip -/

/-- C2: For every input match set, including fully-nested and
partially-overlapping inputs, the sequence returned by `resolve` contains
no two spans whose `[start, end)` ranges intersect. -/
theorem resolve_no_overlapping_spans (ms : List Match) :
    (resolve ms).Pairwise (fun a b => overlaps a b = false) :=
  resolve_pairwise ms

/-- C1 counterexample: with a fixed (language, backend, strategy=replace)
configuration and deterministic (hence stable) detection, the round trip
fails on a text whose two case-variant mentions of one email are merged
into a single entity (decode restores the canonical form at both places),
and on a text that already contains the placeholder the encoder assigns
(decode also replaces the pre-existing token). -/
theorem roundtrip_replace_fails :
    decodeFn (encode .patterns .nl "mail ann@ex.com or ANN@EX.COM now".toList).1
        (encode .patterns .nl "mail ann@ex.com or ANN@EX.COM now".toList).2 ≠
      "mail ann@ex.com or ANN@EX.COM now".toList ∧
    decodeFn (encode .patterns .nl "EMAIL_001 and ann@ex.com".toList).1
        (encode .patterns .nl "EMAIL_001 and ann@ex.com".toList).2 ≠
      "EMAIL_001 and ann@ex.com".toList := by
  decide

/-- C1 (amended): for every text and fixed (language, backend,
strategy=replace) configuration, when the substitution is collision-free
for decoding — each substituted span's literal equals its entity's
canonical value, and scanning the sanitized text finds mapping keys
exactly at the substituted placeholder positions — then
`decode(encode(text)[0], encode(text)[1])` equals the original text. -/
theorem roundtrip_replace (backend : Backend) (lang : Lang) (text : List Char)
    (h : chunksSafe (encode backend lang text).2.entries
          (encodeChunks backend lang text) = true) :
    decodeFn (encode backend lang text).1 (encode backend lang text).2 = text := by
  have h1 : (encode backend lang text).1 = flattenSan (encodeChunks backend lang text) := rfl
  rw [decodeFn, h1, decodeAux_chunks _ _ h]
  exact encodeChunks_orig backend lang text

/-- Witness for the amended C1 at a concrete input. -/
theorem roundtrip_replace_witness :
    chunksSafe (encode .patterns .nl "contact ann@ex.com today".toList).2.entries
        (encodeChunks .patterns .nl "contact ann@ex.com today".toList) = true ∧
    decodeFn (encode .patterns .nl "contact ann@ex.com today".toList).1
        (encode .patterns .nl "contact ann@ex.com today".toList).2 =
      "contact ann@ex.com today".toList :=
  ⟨by decide, roundtrip_replace .patterns .nl _ (by decide)⟩

/-- C5: when detection finds zero matches, encode succeeds and returns
the input text unchanged together with a Mapping holding no entries. -/
theorem encode_zero_matches (backend : Backend) (lang : Lang) (text : List Char)
    (h : detect backend lang text = []) :
    encode backend lang text = (text, ⟨mappingFormatVersion, [], []⟩) := by
  have hspans : encodeSpans backend lang text = [] := by
    rw [encodeSpans, h, resolve]
    rfl
  simp only [encode, encodeChunks, encodeBuild, hspans, buildSpans, List.foldl_nil,
    List.reverse_nil, buildChunks, flattenSan, List.drop_zero, List.append_nil]

/-- Witness for C5 at a concrete input with no detections. -/
theorem encode_zero_matches_witness :
    detect .patterns .en "hello world".toList = [] ∧
    encode .patterns .en "hello world".toList =
      ("hello world".toList, ⟨mappingFormatVersion, [], []⟩) :=
  ⟨by decide, encode_zero_matches .patterns .en _ (by decide)⟩

/-- C6: decode is total and a pure function of the Mapping value (it
never raises and never modifies the Mapping); any text in which the scan
finds no mapping key — in particular one whose placeholder-shaped tokens
are all absent from the Mapping — passes through unchanged; and for any
interleaving of such safe segments with any number (zero or more) of
occurrences of mapped placeholder keys, decode replaces each occurrence
by that entry's canonical value and leaves everything else unchanged. -/
theorem decode_replaces_each_occurrence (m : Mapping) (t : List Char) (chunks : List Chunk) :
    (segSafe m.entries t [] = true → decodeFn t m = t) ∧
    (chunksSafe m.entries chunks = true →
      decodeFn (flattenSan chunks) m = flattenOrig chunks) := by
  constructor
  · intro h
    have hd := decodeAux_safe_append m.entries [] t h
    simpa [decodeFn, decodeAux_nil] using hd
  · intro h
    exact decodeAux_chunks m.entries chunks h

/-- Witness for C6: a text with no mapped key (but an unmapped
placeholder-shaped token) passes through unchanged, and a text with two
occurrences of a mapped key and an unmapped token has exactly the two
occurrences restored. -/
theorem decode_replaces_each_occurrence_witness :
    decodeFn "no keys here PERSON_001".toList
        ⟨"1.0".toList, [],
          [("EMAIL_001".toList, ⟨"a@b.c".toList, .EMAIL, ["a@b.c".toList], 1⟩)]⟩ =
      "no keys here PERSON_001".toList ∧
    decodeFn
        (flattenSan [.seg "hi PERSON_001 and ".toList,
          .ph "EMAIL_001".toList "a@b.c".toList, .seg " plus ".toList,
          .ph "EMAIL_001".toList "a@b.c".toList, .seg " bye".toList])
        ⟨"1.0".toList, [],
          [("EMAIL_001".toList, ⟨"a@b.c".toList, .EMAIL, ["a@b.c".toList], 1⟩)]⟩ =
      flattenOrig [.seg "hi PERSON_001 and ".toList,
        .ph "EMAIL_001".toList "a@b.c".toList, .seg " plus ".toList,
        .ph "EMAIL_001".toList "a@b.c".toList, .seg " bye".toList] :=
  ⟨(decode_replaces_each_occurrence _ "no keys here PERSON_001".toList []).1 (by decide),
   (decode_replaces_each_occurrence _ [] _).2 (by decide)⟩

/-! ## Placeholder numbering -/

theorem keysOfCat_cons (c : Category) (k : List Char) (e : Entity)
    (l : List (List Char × Entity)) :
    keysOfCat c ((k, e) :: l) =
      if e.category = c then k :: keysOfCat c l else keysOfCat c l := by
  rw [keysOfCat, List.filter_cons]
  by_cases h : e.category = c
  · simp [h, keysOfCat]
  · simp [h, keysOfCat]

theorem keysOfCat_append (c : Category) (l1 l2 : List (List Char × Entity)) :
    keysOfCat c (l1 ++ l2) = keysOfCat c l1 ++ keysOfCat c l2 := by
  simp [keysOfCat, List.filter_append]

theorem keysOfCat_updateEntry (c : Category) (k t : List Char) :
    ∀ l : List (List Char × Entity), keysOfCat c (updateEntry k t l) = keysOfCat c l := by
  intro l
  induction l with
  | nil => rfl
  | cons p rest ih =>
    obtain ⟨k', e⟩ := p
    rw [updateEntry]
    split
    · rw [keysOfCat_cons, keysOfCat_cons]
      have hcat : (bumpEntity e t).category = e.category := rfl
      rw [hcat]
    · rw [keysOfCat_cons, keysOfCat_cons, ih]

theorem buildStep_numbering (st : BuildSt) (m : Match)
    (h : ∀ c, keysOfCat c st.entries = (List.range' 1 (st.counters c)).map (mkPlaceholder c)) :
    ∀ c, keysOfCat c (buildStep st m).entries =
      (List.range' 1 ((buildStep st m).counters c)).map (mkPlaceholder c) := by
  intro c
  cases hfg : findGroup m.category (normalize m.text) st.entries with
  | some k =>
    simp only [buildStep, hfg]
    rw [keysOfCat_updateEntry]
    exact h c
  | none =>
    have hent : (buildStep st m).entries =
        st.entries ++ [(mkPlaceholder m.category (st.counters m.category + 1),
          ⟨m.text, m.category, [m.text], 1⟩)] := by
      simp [buildStep, hfg]
    have hcnt : (buildStep st m).counters c =
        if c = m.category then st.counters m.category + 1 else st.counters c := by
      simp [buildStep, hfg]
    rw [hent, hcnt, keysOfCat_append, keysOfCat_cons]
    by_cases hc : c = m.category
    · rw [hc]
      rw [if_pos rfl, if_pos rfl]
      rw [h m.category, List.range'_concat, List.map_append]
      have he : mkPlaceholder m.category (1 + 1 * st.counters m.category) =
          mkPlaceholder m.category (st.counters m.category + 1) := by
        rw [Nat.one_mul, Nat.add_comm]
      simp [keysOfCat, he]
      rw [Nat.add_comm]
    · rw [if_neg (fun hx : (⟨m.text, m.category, [m.text], 1⟩ : Entity).category = c =>
        hc hx.symm)]
      rw [if_neg hc, h c]
      simp [keysOfCat]

theorem buildSpans_numbering : ∀ (spans : List Match) (st : BuildSt),
    (∀ c, keysOfCat c st.entries = (List.range' 1 (st.counters c)).map (mkPlaceholder c)) →
    ∀ c, keysOfCat c (spans.foldl buildStep st).entries =
      (List.range' 1 ((spans.foldl buildStep st).counters c)).map (mkPlaceholder c) := by
  intro spans
  induction spans with
  | nil => intro st h; exact h
  | cons m rest ih =>
    intro st h
    rw [List.foldl_cons]
    exact ih _ (buildStep_numbering st m h)

/-- C3: within one encode call, for every category, placeholder numbers
are monotonic and gap-free and are assigned in first-encounter order
while scanning the resolved spans left to right — the keys of category
`c`, in entry-creation order, are exactly `c_001 .. c_NNN`; this holds
for the mapping build applied to any resolved-span list (hence for any
detection backend) and in particular for the build of an encode call. -/
theorem placeholder_numbering (spans : List Match) (backend : Backend) (lang : Lang)
    (text : List Char) (c : Category) :
    keysOfCat c (buildSpans spans).entries =
      (List.range' 1 ((buildSpans spans).counters c)).map (mkPlaceholder c) ∧
    keysOfCat c (encodeBuild backend lang text).entries =
      (List.range' 1 ((encodeBuild backend lang text).counters c)).map (mkPlaceholder c) := by
  constructor
  · rw [buildSpans]
    exact buildSpans_numbering spans _ (fun c => by simp [keysOfCat]) c
  · rw [encodeBuild, buildSpans]
    exact buildSpans_numbering _ _ (fun c => by simp [keysOfCat]) c

/-! ## Checksum rejection -/

/-- C4: every IBAN match any pattern detection reports passes the mod-97
checksum and every national-ID match passes the elfproef — so a
syntactically shaped but checksum-invalid candidate never appears in the
detector output for that category. -/
theorem patternDetect_checksums (lang : Lang) (text : List Char) (m : Match)
    (h : m ∈ patternDetect lang text) :
    (m.category = .IBAN → ibanChecksum m.text = true) ∧
    (m.category = .NATIONAL_ID → bsnChecksum m.text = true) := by
  rw [patternDetect] at h
  simp only [List.mem_append] at h
  rcases h with (he | hi) | hb
  · obtain ⟨s, tok, _, _, hm⟩ := emailMatches_mem he
    subst hm
    exact ⟨fun hc => by simp [mkMatch] at hc, fun hc => by simp [mkMatch] at hc⟩
  · obtain ⟨s, tok, _, hcs, hm⟩ := ibanMatches_mem hi
    subst hm
    rw [Bool.and_eq_true] at hcs
    exact ⟨fun _ => hcs.2, fun hc => by simp [mkMatch] at hc⟩
  · split at hb
    · obtain ⟨s, tok, _, hcs, hm⟩ := bsnMatches_mem hb
      subst hm
      rw [Bool.and_eq_true] at hcs
      exact ⟨fun hc => by simp [mkMatch] at hc, fun _ => hcs.2⟩
    · simp at hb

/-- Witness for C4: a valid IBAN and a valid BSN are reported and their
checksums hold. -/
theorem patternDetect_checksums_witness :
    ibanChecksum (mkMatch .IBAN 0 "NL91ABNA0417164300".toList).text = true ∧
    bsnChecksum (mkMatch .NATIONAL_ID 0 "111222333".toList).text = true :=
  ⟨(patternDetect_checksums .nl "NL91ABNA0417164300".toList _ (by decide)).1 rfl,
   (patternDetect_checksums .nl "111222333".toList _ (by decide)).2 rfl⟩

/-! ## Mapping load lemmas -/

theorem parseVariations_isSome : ∀ vs : List JVal, (parseVariations vs).isSome = varsOkB vs := by
  intro vs
  induction vs with
  | nil => rfl
  | cons v rest ih =>
    cases v with
    | str s => simp [parseVariations, varsOkB, ih]
    | num n => rfl
    | arr xs => rfl
    | obj fs => rfl

theorem parseEntry_ok {key : List Char} {v : JVal} {e : Entity}
    (h : parseEntry key v = .ok e) : entryOkB v = true := by
  cases v with
  | str s => simp [parseEntry] at h
  | num n => simp [parseEntry] at h
  | arr xs => simp [parseEntry] at h
  | obj fields =>
    rw [parseEntry] at h
    rw [entryOkB]
    split at h
    · split at h
      · rename_i h5 h6
        simp_all [← parseVariations_isSome]
      · simp at h
    · rename_i hne
      simp at h

theorem parseEntries_ok : ∀ (efs : List (List Char × JVal)) (entries : List (List Char × Entity)),
    parseEntries efs = .ok entries → efs.all (fun kv => entryOkB kv.2) = true := by
  intro efs
  induction efs with
  | nil => intro entries _; rfl
  | cons kv rest ih =>
    intro entries h
    obtain ⟨k, v⟩ := kv
    rw [parseEntries] at h
    cases hpe : parseEntry k v with
    | error err => rw [hpe] at h; simp at h
    | ok e =>
      rw [hpe] at h
      cases hpr : parseEntries rest with
      | error err => rw [hpr] at h; simp at h
      | ok es =>
        rw [List.all_cons, Bool.and_eq_true]
        exact ⟨parseEntry_ok hpe, ih es hpr⟩

theorem loadMapping_ok {doc : JVal} {m : Mapping} (h : loadMapping doc = .ok m) :
    wellFormedB doc = true := by
  cases doc with
  | str s => simp [loadMapping] at h
  | num n => simp [loadMapping] at h
  | arr xs => simp [loadMapping] at h
  | obj fields =>
    rw [loadMapping] at h
    rw [wellFormedB]
    cases hv : jget fields "version".toList with
    | none => rw [hv] at h; simp at h
    | some vv =>
      rw [hv] at h
      cases vv with
      | num n => simp at h
      | arr xs => simp at h
      | obj fs => simp at h
      | str v =>
        dsimp only at h
        by_cases hver : v = mappingFormatVersion
        · rw [if_pos hver] at h
          cases hc : jget fields "created".toList with
          | none => rw [hc] at h; simp at h
          | some cv =>
            rw [hc] at h
            cases cv with
            | num n => simp at h
            | arr xs => simp at h
            | obj fs => simp at h
            | str created =>
              dsimp only at h
              cases he : jget fields "entries".toList with
              | none => rw [he] at h; simp at h
              | some ev =>
                rw [he] at h
                cases ev with
                | str s => simp at h
                | num n => simp at h
                | arr xs => simp at h
                | obj efs =>
                  dsimp only at h
                  cases hpe : parseEntries efs with
                  | error err => rw [hpe] at h; simp at h
                  | ok entries =>
                    dsimp only
                    rw [parseEntries_ok efs entries hpe]
                    simp [hver]
        · rw [if_neg hver] at h
          simp at h

/-- C7: loading a malformed or version-unrecognized persisted mapping
fails with a `MappingFormatError`; the `Except` result is all-or-nothing,
so no partially-constructed Mapping is observable and no entry is
silently dropped. -/
theorem loadMapping_rejects_malformed (doc : JVal) (h : wellFormedB doc = false) :
    ∃ e : MappingFormatError, loadMapping doc = .error e := by
  cases hl : loadMapping doc with
  | ok m =>
    rw [loadMapping_ok hl] at h
    simp at h
  | error e => exact ⟨e, rfl⟩

/-- Witness for C7: a document with an unrecognized version is rejected,
and so is a malformed (non-object) document. -/
theorem loadMapping_rejects_malformed_witness :
    (∃ e : MappingFormatError,
      loadMapping (.obj [("version".toList, .str "9.9".toList)]) = .error e) ∧
    (∃ e : MappingFormatError, loadMapping (.str "oops".toList) = .error e) :=
  ⟨loadMapping_rejects_malformed _ (by decide),
   loadMapping_rejects_malformed _ (by decide)⟩

/-! ## Converter lemmas -/

theorem tessLoop_counts : ∀ (pages : List Page) (n : Nat) (acc : List (List Char))
    (nat_ ocr_ : Nat),
    (tessLoop pages n acc nat_ ocr_).1.length = acc.length + pages.length ∧
    (tessLoop pages n acc nat_ ocr_).2.1 = nat_ + pages.countP (fun p => !(pageResult p).2) ∧
    (tessLoop pages n acc nat_ ocr_).2.2 = ocr_ + pages.countP (fun p => (pageResult p).2) := by
  intro pages
  induction pages with
  | nil =>
    intro n acc nat_ ocr_
    simp [tessLoop]
  | cons p rest ih =>
    intro n acc nat_ ocr_
    rw [tessLoop]
    obtain ⟨h1, h2, h3⟩ := ih (n + 1) ((pageBanner (n + 1) ++ (pageResult p).1) :: acc)
      (if (pageResult p).2 then nat_ else nat_ + 1)
      (if (pageResult p).2 then ocr_ + 1 else ocr_)
    refine ⟨?_, ?_, ?_⟩
    · rw [h1]
      simp
      omega
    · rw [h2, List.countP_cons]
      cases hpr : (pageResult p).2 <;> simp [hpr] <;> omega
    · rw [h3, List.countP_cons]
      cases hpr : (pageResult p).2 <;> simp [hpr] <;> omega

theorem countP_pageResult_split : ∀ l : List Page,
    l.countP (fun p => !(pageResult p).2) + l.countP (fun p => (pageResult p).2) = l.length := by
  intro l
  induction l with
  | nil => rfl
  | cons p rest ih =>
    rw [List.countP_cons, List.countP_cons, List.length_cons]
    cases hpr : (pageResult p).2 <;> simp [hpr] <;> omega

/-- C9: in `convert_with_pymupdf_tesseract` each page increments exactly
one of the two counters, so `native_pages + ocr_pages = total_pages`; and
a page counts as OCR only when its native text strips to fewer than 50
characters and the OCR result is strictly longer after stripping. -/
theorem pymupdf_tesseract_page_counts (pages : List Page) :
    (convert_with_pymupdf_tesseract pages).2.native_pages +
      (convert_with_pymupdf_tesseract pages).2.ocr_pages =
      (convert_with_pymupdf_tesseract pages).2.total_pages ∧
    (convert_with_pymupdf_tesseract pages).2.ocr_pages =
      pages.countP (fun p => (pageResult p).2) ∧
    ∀ p : Page, (pageResult p).2 = true →
      (pyStrip p.native).length < 50 ∧
      ∃ o, p.ocr = some o ∧ (pyStrip p.native).length < (pyStrip o).length := by
  obtain ⟨h1, h2, h3⟩ := tessLoop_counts pages 0 [] 0 0
  refine ⟨?_, ?_, ?_⟩
  · show (tessLoop pages 0 [] 0 0).2.1 + (tessLoop pages 0 [] 0 0).2.2 =
      (tessLoop pages 0 [] 0 0).1.length
    rw [h1, h2, h3]
    simp only [List.length_nil, Nat.zero_add]
    exact countP_pageResult_split pages
  · show (tessLoop pages 0 [] 0 0).2.2 = pages.countP (fun p => (pageResult p).2)
    rw [h3]
    simp
  · intro p hp
    by_cases h50 : (pyStrip p.native).length < 50
    · cases hocr : p.ocr with
      | none =>
        rw [pageResult, if_pos h50, hocr] at hp
        simp at hp
      | some o =>
        rw [pageResult, if_pos h50, hocr] at hp
        dsimp only at hp
        by_cases hcond :
            (!o.isEmpty && decide ((pyStrip p.native).length < (pyStrip o).length)) = true
        · simp only [Bool.and_eq_true, decide_eq_true_eq] at hcond
          exact ⟨h50, o, rfl, hcond.2⟩
        · rw [if_neg (by simpa using hcond)] at hp
          simp at hp
    · rw [pageResult, if_neg h50] at hp
      simp at hp

theorem getAvail_marker (p : ConvProbes) :
    getAvail (get_available_converters p) "marker" = check_marker_available p.marker := rfl

theorem getAvail_pymupdf (p : ConvProbes) :
    getAvail (get_available_converters p) "pymupdf" = check_pymupdf_available p.pymupdf := rfl

theorem getAvail_tesseract (p : ConvProbes) :
    getAvail (get_available_converters p) "tesseract" = check_tesseract_available p.tesseract := rfl

/-- C8: `convert_pdf` raises `FileNotFoundError` for a missing path,
`ValueError` for a backend outside auto/marker/tesseract/pymupdf, and
`ImportError` for backend auto when no converter library is available —
in each case returning an error, never text or metadata. -/
theorem convert_pdf_error_cases (env : PdfEnv) (b : String) :
    (env.pdfExists = false → convert_pdf env b = .error .fileNotFoundError) ∧
    (env.pdfExists = true → b ≠ "auto" → b ≠ "marker" → b ≠ "tesseract" → b ≠ "pymupdf" →
      convert_pdf env b = .error .valueError) ∧
    (env.pdfExists = true →
      check_marker_available env.probes.marker = false →
      check_pymupdf_available env.probes.pymupdf = false →
      check_tesseract_available env.probes.tesseract = false →
      convert_pdf env "auto" = .error .importError) := by
  refine ⟨?_, ?_, ?_⟩
  · intro h
    rw [convert_pdf, h]
    rfl
  · intro hex hna hnm hnt hnp
    rw [convert_pdf, hex]
    simp only [Bool.not_true, Bool.false_eq_true, if_false]
    rw [if_neg hna]
    dsimp only
    rw [if_neg hnm, if_neg hnt, if_neg hnp]
  · intro hex hm hp ht
    rw [convert_pdf, hex]
    simp only [Bool.not_true, Bool.false_eq_true, if_false]
    rw [if_pos trivial]
    rw [getAvail_marker, getAvail_pymupdf, getAvail_tesseract, hm, hp, ht]
    rfl

/-- Witness for C8: the three error cases at concrete environments. -/
theorem convert_pdf_error_cases_witness :
    convert_pdf ⟨false, ⟨.ok (), .ok (), .ok ()⟩, [], none, []⟩ "auto" =
      .error .fileNotFoundError ∧
    convert_pdf ⟨true, ⟨.ok (), .ok (), .ok ()⟩, [], none, []⟩ "bogus" =
      .error .valueError ∧
    convert_pdf ⟨true, ⟨.error ⟨[]⟩, .error ⟨[]⟩, .error ⟨[]⟩⟩, [], none, []⟩ "auto" =
      .error .importError :=
  ⟨(convert_pdf_error_cases _ "auto").1 rfl,
   (convert_pdf_error_cases _ "bogus").2.1 rfl (by decide) (by decide) (by decide) (by decide),
   (convert_pdf_error_cases _ "auto").2.2 rfl rfl rfl rfl⟩

/-- C10: `get_available_converters` is total for every probe outcome and
returns exactly the keys marker, pymupdf, tesseract; a probe that raised
any exception reports `false`, a successful probe reports `true`. -/
theorem get_available_converters_keys (p : ConvProbes) :
    ((get_available_converters p).map Prod.fst = ["marker", "pymupdf", "tesseract"]) ∧
    (∀ e, p.marker = .error e →
      (get_available_converters p).lookup "marker" = some false) ∧
    (∀ u, p.marker = .ok u →
      (get_available_converters p).lookup "marker" = some true) ∧
    (∀ e, p.pymupdf = .error e →
      (get_available_converters p).lookup "pymupdf" = some false) ∧
    (∀ u, p.pymupdf = .ok u →
      (get_available_converters p).lookup "pymupdf" = some true) ∧
    (∀ e, p.tesseract = .error e →
      (get_available_converters p).lookup "tesseract" = some false) ∧
    (∀ u, p.tesseract = .ok u →
      (get_available_converters p).lookup "tesseract" = some true) := by
  refine ⟨rfl, ?_, ?_, ?_, ?_, ?_, ?_⟩ <;> intro x hx <;>
    simp [get_available_converters, List.lookup, check_marker_available,
      check_pymupdf_available, check_tesseract_available, hx]

/-- Witness for C10: failed probes report false, successful ones true. -/
theorem get_available_converters_keys_witness :
    (get_available_converters ⟨.error ⟨[]⟩, .ok (), .error ⟨[]⟩⟩).lookup "marker" =
      some false ∧
    (get_available_converters ⟨.error ⟨[]⟩, .ok (), .error ⟨[]⟩⟩).lookup "pymupdf" =
      some true :=
  ⟨(get_available_converters_keys _).2.1 ⟨[]⟩ rfl,
   (get_available_converters_keys _).2.2.2.2.1 () rfl⟩

/-- Witness for C9: a near-empty native page with a strictly longer OCR
result satisfies the OCR-page conditions. -/
theorem pymupdf_tesseract_page_counts_witness :
    (pyStrip (⟨"hi".toList, some "a much longer ocr result".toList⟩ : Page).native).length < 50 ∧
    ∃ o, (⟨"hi".toList, some "a much longer ocr result".toList⟩ : Page).ocr = some o ∧
      (pyStrip (⟨"hi".toList, some "a much longer ocr result".toList⟩ : Page).native).length <
        (pyStrip o).length :=
  (pymupdf_tesseract_page_counts []).2.2 ⟨"hi".toList, some "a much longer ocr result".toList⟩
    (by decide)

end DocSanitizer
